import Mathlib

/-!
Shallow embedding of the BrainBang-to-Brainfuck compiler
(`src/compilers/brainbang_compiler.py`, class `BrainBangCompiler`).

Source text is modelled as `List Char` (Python `str`).  The compiler's
mutable state (`self.output`, `self.loop_stack`) is threaded explicitly
through `CompSt`; Python exceptions become `Except` errors whose
constructors record the error kind and payload (the message text of the
Python `SyntaxError`/`ValueError` is abstracted to its structured content).
-/

set_option maxRecDepth 100000

deriving instance DecidableEq for Except

namespace BrainBang

/-- The single-quote character, `chr(39)`. -/
def sq : Char := Char.ofNat 39

/-- The double-quote character, `chr(34)`. -/
def dq : Char := Char.ofNat 34

/-- Python whitespace for `str.strip()` (ASCII subset; the source programs
in question contain no exotic Unicode whitespace). -/
def pyWS (c : Char) : Bool :=
  c = ' ' || c = '\t' || c = '\n' || c = '\r' || c = Char.ofNat 11 || c = Char.ofNat 12

/-- Comment stripping: drop everything from the first occurrence of `//`
on (Python `line[:line.index(chr(47)+chr(47))]`). -/
def stripComment : List Char → List Char
  | [] => []
  | c :: rest =>
    if c = '/' ∧ rest.head? = some '/' then []
    else c :: stripComment rest

/-- Leading-whitespace removal (left half of Python `str.strip()`). -/
def lstrip (l : List Char) : List Char := l.dropWhile pyWS

/-- Trailing-whitespace removal (right half of Python `str.strip()`). -/
def rstrip (l : List Char) : List Char := (l.reverse.dropWhile pyWS).reverse

/-- Python `str.strip()`. -/
def strip (l : List Char) : List Char := rstrip (lstrip l)

/-- Indentation measurement from `_preprocess_lines`: leading spaces count 1,
leading tabs count 4, stop at the first other character. -/
def indentOf : List Char → Nat
  | [] => 0
  | c :: rest =>
    if c = ' ' then 1 + indentOf rest
    else if c = '\t' then 4 + indentOf rest
    else 0

/-- Python `source_code.split(chr(10))`. -/
def splitLines : List Char → List (List Char)
  | [] => [[]]
  | c :: rest =>
    if c = '\n' then [] :: splitLines rest
    else
      match splitLines rest with
      | [] => [[c]]
      | l :: ls => (c :: l) :: ls

/-- Python `str.isdigit()` (restricted to the ASCII digits that the
programs at issue use). -/
def pyIsdigit (l : List Char) : Bool := !l.isEmpty && l.all Char.isDigit

/-- Python `int(...)` on a digit string. -/
def parseNat (l : List Char) : Nat := l.foldl (fun a c => 10 * a + (c.toNat - 48)) 0

/-- The clear idiom `[-]`. -/
def clear : List Char := ['[', '-', ']']

/-- Structured content of the errors raised while processing one line. -/
inductive LineErr where
  | unknownStatement (content : List Char)
  | invalidEnt (v : List Char)
  | rangeError (n : Nat)
  | invalidShift (s : List Char)
  | invalidShiftNumber (s : List Char)
  | shiftNotPositive (s : List Char)
  | invalidIncAmount (s : List Char)
  | incNotPositive (n : Nat)
  | invalidInc (s : List Char)
  | invalidDecAmount (s : List Char)
  | decNotPositive (n : Nat)
  | invalidDec (s : List Char)
  deriving DecidableEq, Repr

/-- Errors escaping `compile`: either the terminator `SyntaxError` raised
directly by `_preprocess_lines`, or a per-line error re-raised by `compile`
wrapped with the 1-based line number. -/
inductive CErr where
  | badTerminator (content : List Char)
  | atLine (n : Nat) (e : LineErr)
  deriving DecidableEq, Repr

/-- The line position carried by an error (`none` when the error is not
wrapped with one). -/
def CErr.lineNum : CErr → Option Nat
  | .badTerminator _ => none
  | .atLine n _ => some n

/-- Clear-then-set encoding of one character: `[-]` then `ord(c)` pluses. -/
def encodeChar (c : Char) : List Char := clear ++ List.replicate c.toNat '+'

/-- Encoding of every character after the first: `>` before each. -/
def encodeRest : List Char → List Char
  | [] => []
  | c :: rest => '>' :: (encodeChar c ++ encodeRest rest)

/-- The string-literal loop of `_handle_ent`: first character without a
shift, each later character preceded by `>`. -/
def encodeString : List Char → List Char
  | [] => []
  | c :: rest => encodeChar c ++ encodeRest rest

/-- Model of `_handle_ent`: tokens appended for `ent <value>` (or the error raised). -/
def handle_ent (value_str0 : List Char) : Except LineErr (List Char) :=
  let value_str := strip value_str0
  if value_str = "input".data then
    .ok (clear ++ [','])
  else if value_str.head? = some sq && value_str.getLast? = some sq &&
      value_str.length = 3 then
    match value_str with
    | [_, c, _] => .ok (clear ++ List.replicate c.toNat '+')
    | _ => .error (.invalidEnt value_str)
  else if value_str.head? = some dq && value_str.getLast? = some dq then
    .ok (encodeString ((value_str.drop 1).dropLast))
  else if pyIsdigit value_str then
    let num := parseNat value_str
    if num > 255 then .error (.rangeError num)
    else .ok (clear ++ List.replicate num '+')
  else .error (.invalidEnt value_str)

/-- Model of `_handle_multi_shift`: tokens for `<<N` / `>>N`. -/
def handle_multi_shift (shift_str : List Char) : Except LineErr (List Char) :=
  let pick : Option (Char × List Char) :=
    if List.isPrefixOf "<<".data shift_str then some ('<', shift_str.drop 2)
    else if List.isPrefixOf ">>".data shift_str then some ('>', shift_str.drop 2)
    else none
  match pick with
  | none => .error (.invalidShift shift_str)
  | some (direction, num_str) =>
    if !pyIsdigit num_str then .error (.invalidShiftNumber shift_str)
    else
      let num_shifts := parseNat num_str
      if num_shifts ≤ 0 then .error (.shiftNotPositive shift_str)
      else .ok (List.replicate num_shifts direction)

/-- Model of `_handle_inc`: tokens for `inc` / `inc N`. -/
def handle_inc (inc_str : List Char) : Except LineErr (List Char) :=
  if strip inc_str = "inc".data then .ok ['+']
  else if List.isPrefixOf "inc ".data inc_str then
    let amount_str := strip (inc_str.drop 4)
    if !pyIsdigit amount_str then .error (.invalidIncAmount amount_str)
    else
      let amount := parseNat amount_str
      if amount ≤ 0 then .error (.incNotPositive amount)
      else .ok (List.replicate amount '+')
  else .error (.invalidInc inc_str)

/-- Model of `_handle_dec`: tokens for `dec` / `dec N`. -/
def handle_dec (dec_str : List Char) : Except LineErr (List Char) :=
  if strip dec_str = "dec".data then .ok ['-']
  else if List.isPrefixOf "dec ".data dec_str then
    let amount_str := strip (dec_str.drop 4)
    if !pyIsdigit amount_str then .error (.invalidDecAmount amount_str)
    else
      let amount := parseNat amount_str
      if amount ≤ 0 then .error (.decNotPositive amount)
      else .ok (List.replicate amount '-')
  else .error (.invalidDec dec_str)

/-- The dedent loop at the top of `_process_line`: pop (emitting one `]`
per pop) while the stack is non-empty and `indent_level` is at most the top
frame's indent.  Returns the emitted tokens and the remaining stack (top of
the stack is the head of the list). -/
def popLoops (indent : Nat) : List Nat → (List Char × List Nat)
  | [] => ([], [])
  | top :: rest =>
    if indent ≤ top then
      let r := popLoops indent rest
      (']' :: r.1, r.2)
    else ([], top :: rest)

/-- Trailing-semicolon removal of `_process_line`: the Python
`content[:-1] if content.endswith(chr(59)) else content`. -/
def dropSemi (content : List Char) : List Char :=
  if content.getLast? = some ';' then content.dropLast else content

/-- The statement dispatch of `_process_line` (after the dedent loop and
semicolon stripping): returns the appended tokens and the updated loop
stack. -/
def dispatch (indent : Nat) (content : List Char) (stack : List Nat) :
    Except LineErr (List Char × List Nat) :=
  if List.isPrefixOf "loop:".data content then
    .ok (['['], indent :: stack)
  else if List.isPrefixOf "ent ".data content then
    (handle_ent (content.drop 4)).map (fun t => (t, stack))
  else if content = "cellout".data then
    .ok (['.'], stack)
  else if content = ['<'] ∨ content = ['>'] then
    .ok (content, stack)
  else if List.isPrefixOf "<<".data content ∨ List.isPrefixOf ">>".data content then
    (handle_multi_shift content).map (fun t => (t, stack))
  else if List.isPrefixOf "inc".data content then
    (handle_inc content).map (fun t => (t, stack))
  else if List.isPrefixOf "dec".data content then
    (handle_dec content).map (fun t => (t, stack))
  else if content = "clr".data then
    .ok (clear, stack)
  else .error (.unknownStatement content)

/-- The compiler's mutable state: `self.output` (kept as a flat token list)
and `self.loop_stack` (head = top). -/
structure CompSt where
  output : List Char
  stack : List Nat
  deriving DecidableEq, Repr

/-- Model of `_process_line`. -/
def process_line (indent : Nat) (content : List Char) (st : CompSt) :
    Except LineErr CompSt :=
  if content = [] then .ok st
  else
    let closed := popLoops indent st.stack
    let content1 := dropSemi content
    (dispatch indent content1 closed.2).map
      (fun r => ⟨st.output ++ closed.1 ++ r.1, r.2⟩)

/-- Model of `_preprocess_lines`: comment stripping, blank elision,
indentation measurement and terminator validation. -/
def preprocess : List (List Char) → Except CErr (List (Nat × List Char))
  | [] => .ok []
  | line :: rest =>
    let l := stripComment line
    let content := strip l
    if content = [] then preprocess rest
    else if content.getLast? = some ':' ∨ content.getLast? = some ';' then
      (preprocess rest).map (fun ps => (indentOf l, content) :: ps)
    else .error (.badTerminator content)

/-- The `for line_num, ... enumerate(processed_lines, 1)` loop of `compile`:
process each line, wrapping any error with the 1-based line number. -/
def runLines (n : Nat) (lines : List (Nat × List Char)) (st : CompSt) :
    Except CErr CompSt :=
  match lines with
  | [] => .ok st
  | (indent, content) :: rest =>
    match process_line indent content st with
    | .error e => .error (.atLine n e)
    | .ok st1 => runLines (n + 1) rest st1

/-- Model of `BrainBangCompiler.compile`: preprocess, run every line, then
flush the remaining open loop frames with one `]` each. -/
def compile (source_code : List Char) : Except CErr (List Char) :=
  match preprocess (splitLines source_code) with
  | .error e => .error e
  | .ok processed =>
    match runLines 1 processed ⟨[], []⟩ with
    | .error e => .error e
    | .ok st => .ok (st.output ++ List.replicate st.stack.length ']')

/-- The prefix-sum walk over the bracket tokens, on `Nat` so that `none`
signals the walk going negative: `cnt l 0 = some 0` says the brackets of
`l` are balanced and properly nested. -/
def cnt : List Char → Nat → Option Nat
  | [], n => some n
  | c :: rest, n =>
    if c = '[' then cnt rest (n + 1)
    else if c = ']' then
      match n with
      | 0 => none
      | m + 1 => cnt rest m
    else cnt rest n

/-- The eight-character primitive token alphabet. -/
def bf8 : List Char := ['>', '<', '+', '-', '[', ']', '.', ',']

/-- A balanced token segment: the bracket walk leaves any start value
unchanged and never fails. -/
def BalSeg (t : List Char) : Prop := ∀ n, cnt t n = some n

/-- All characters of the segment lie in the eight-token alphabet. -/
def Alpha8 (t : List Char) : Prop := ∀ c ∈ t, c ∈ bf8

/-- A segment that is both balanced and within the alphabet. -/
def GoodSeg (t : List Char) : Prop := BalSeg t ∧ Alpha8 t

/-- The compiler state invariant: the bracket walk of the output equals the
open-frame count, the output stays within the alphabet, and the stack is
strictly decreasing from its top (head). -/
def Inv (st : CompSt) : Prop :=
  cnt st.output 0 = some st.stack.length ∧ Alpha8 st.output ∧
    List.Chain' (· > ·) st.stack

/-- Restatement of the string-literal emission rule in the spec's words:
for each character in order, one forward shift before every character
except the first (index 0), then the clear idiom followed by as many
increments as the character's ordinal value. -/
def encodeStringSpec (s : List Char) : List Char :=
  (s.enum.map (fun p =>
    (if p.1 = 0 then [] else ['>']) ++ clear ++ List.replicate p.2.toNat '+')).flatten

theorem cnt_append (l₁ : List Char) : ∀ (l₂ : List Char) (n : Nat),
    cnt (l₁ ++ l₂) n = (cnt l₁ n).bind (fun m => cnt l₂ m) := by
  induction l₁ with
  | nil => intro l₂ n; rfl
  | cons c rest ih =>
    intro l₂ n
    by_cases hc : c = '['
    · simp [cnt, hc, ih]
    · by_cases hc2 : c = ']'
      · cases n with
        | zero => simp [cnt, hc, hc2]
        | succ m => simp [cnt, hc, hc2, ih]
      · simp [cnt, hc, hc2, ih]

theorem balSeg_nil : BalSeg [] := fun _ => rfl

theorem balSeg_append {a b : List Char} (ha : BalSeg a) (hb : BalSeg b) :
    BalSeg (a ++ b) := by
  intro n; rw [cnt_append, ha n]; exact hb n

theorem balSeg_replicate {c : Char} (h1 : c ≠ '[') (h2 : c ≠ ']') (k : Nat) :
    BalSeg (List.replicate k c) := by
  intro n
  induction k with
  | zero => rfl
  | succ m ih => simp [List.replicate_succ, cnt, h1, h2, ih]

theorem balSeg_clear : BalSeg clear := fun _ => rfl

theorem balSeg_encodeChar (c : Char) : BalSeg (encodeChar c) :=
  balSeg_append balSeg_clear (balSeg_replicate (by decide) (by decide) _)

theorem balSeg_encodeRest : ∀ s : List Char, BalSeg (encodeRest s) := by
  intro s
  induction s with
  | nil => exact balSeg_nil
  | cons c rest ih =>
    intro n
    show cnt ('>' :: (encodeChar c ++ encodeRest rest)) n = some n
    simp only [cnt, if_neg (by decide : ¬('>' = '[')), if_neg (by decide : ¬('>' = ']'))]
    exact balSeg_append (balSeg_encodeChar c) ih n

theorem balSeg_encodeString (s : List Char) : BalSeg (encodeString s) := by
  cases s with
  | nil => exact balSeg_nil
  | cons c rest => exact balSeg_append (balSeg_encodeChar c) (balSeg_encodeRest rest)

theorem alpha8_nil : Alpha8 [] := by intro c hc; cases hc

theorem alpha8_append {a b : List Char} (ha : Alpha8 a) (hb : Alpha8 b) :
    Alpha8 (a ++ b) := by
  intro c hc
  rcases List.mem_append.mp hc with h | h
  · exact ha c h
  · exact hb c h

theorem alpha8_replicate {c : Char} (h : c ∈ bf8) (k : Nat) :
    Alpha8 (List.replicate k c) := by
  intro x hx
  rw [List.eq_of_mem_replicate hx]
  exact h

theorem alpha8_clear : Alpha8 clear := by intro c hc; fin_cases hc <;> decide

theorem alpha8_encodeChar (c : Char) : Alpha8 (encodeChar c) :=
  alpha8_append alpha8_clear (alpha8_replicate (by decide) _)

theorem alpha8_encodeRest : ∀ s : List Char, Alpha8 (encodeRest s) := by
  intro s
  induction s with
  | nil => exact alpha8_nil
  | cons c rest ih =>
    intro x hx
    rcases List.mem_cons.mp hx with rfl | hx
    · decide
    · exact alpha8_append (alpha8_encodeChar c) ih x hx

theorem alpha8_encodeString (s : List Char) : Alpha8 (encodeString s) := by
  cases s with
  | nil => exact alpha8_nil
  | cons c rest => exact alpha8_append (alpha8_encodeChar c) (alpha8_encodeRest rest)

theorem goodSeg_append {a b : List Char} (ha : GoodSeg a) (hb : GoodSeg b) :
    GoodSeg (a ++ b) :=
  ⟨balSeg_append ha.1 hb.1, alpha8_append ha.2 hb.2⟩

theorem goodSeg_replicate {c : Char} (hm : c ∈ bf8) (h1 : c ≠ '[') (h2 : c ≠ ']')
    (k : Nat) : GoodSeg (List.replicate k c) :=
  ⟨balSeg_replicate h1 h2 k, alpha8_replicate hm k⟩

theorem goodSeg_clear : GoodSeg clear := ⟨balSeg_clear, alpha8_clear⟩

theorem goodSeg_encodeString (s : List Char) : GoodSeg (encodeString s) :=
  ⟨balSeg_encodeString s, alpha8_encodeString s⟩

theorem handle_ent_good {v t : List Char} (h : handle_ent v = .ok t) : GoodSeg t := by
  simp only [handle_ent] at h
  split at h
  · cases h
    exact goodSeg_append goodSeg_clear
      ⟨balSeg_replicate (by decide) (by decide) 1, by intro c hc; fin_cases hc; decide⟩
  · split at h
    · split at h
      · cases h
        exact goodSeg_append goodSeg_clear (goodSeg_replicate (by decide) (by decide) (by decide) _)
      · cases h
    · split at h
      · cases h
        exact goodSeg_encodeString _
      · split at h
        · split at h
          · cases h
          · cases h
            exact goodSeg_append goodSeg_clear
              (goodSeg_replicate (by decide) (by decide) (by decide) _)
        · cases h

theorem handle_multi_shift_good {s t : List Char} (h : handle_multi_shift s = .ok t) :
    GoodSeg t := by
  simp only [handle_multi_shift] at h
  by_cases h1 : List.isPrefixOf "<<".data s = true
  · rw [if_pos h1] at h
    dsimp only at h
    split at h
    · cases h
    · split at h
      · cases h
      · cases h
        exact goodSeg_replicate (by decide) (by decide) (by decide) _
  · rw [if_neg h1] at h
    by_cases h2 : List.isPrefixOf ">>".data s = true
    · rw [if_pos h2] at h
      dsimp only at h
      split at h
      · cases h
      · split at h
        · cases h
        · cases h
          exact goodSeg_replicate (by decide) (by decide) (by decide) _
    · rw [if_neg h2] at h
      cases h

theorem handle_inc_good {s t : List Char} (h : handle_inc s = .ok t) : GoodSeg t := by
  simp only [handle_inc] at h
  split at h
  · cases h
    exact goodSeg_replicate (by decide) (by decide) (by decide) 1
  · split at h
    · split at h
      · cases h
      · split at h
        · cases h
        · cases h
          exact goodSeg_replicate (by decide) (by decide) (by decide) _
    · cases h

theorem handle_dec_good {s t : List Char} (h : handle_dec s = .ok t) : GoodSeg t := by
  simp only [handle_dec] at h
  split at h
  · cases h
    exact goodSeg_replicate (by decide) (by decide) (by decide) 1
  · split at h
    · split at h
      · cases h
      · split at h
        · cases h
        · cases h
          exact goodSeg_replicate (by decide) (by decide) (by decide) _
    · cases h

theorem dispatch_ok {i : Nat} {c : List Char} {stack : List Nat}
    {r : List Char × List Nat} (h : dispatch i c stack = .ok r) :
    (GoodSeg r.1 ∧ r.2 = stack) ∨ (r.1 = ['['] ∧ r.2 = i :: stack) := by
  simp only [dispatch] at h
  split at h
  · cases h; exact Or.inr ⟨rfl, rfl⟩
  · split at h
    · cases he : handle_ent (c.drop 4) with
      | error e => rw [he] at h; cases h
      | ok t => rw [he] at h; cases h; exact Or.inl ⟨handle_ent_good he, rfl⟩
    · split at h
      · cases h
        refine Or.inl ⟨⟨balSeg_replicate (c := '.') (by decide) (by decide) 1, ?_⟩, rfl⟩
        intro x hx; fin_cases hx; decide
      · split at h
        · rename_i hc
          cases h
          rcases hc with hc | hc <;> rw [hc]
          · exact Or.inl ⟨⟨balSeg_replicate (c := '<') (by decide) (by decide) 1,
              by intro x hx; fin_cases hx; decide⟩, rfl⟩
          · exact Or.inl ⟨⟨balSeg_replicate (c := '>') (by decide) (by decide) 1,
              by intro x hx; fin_cases hx; decide⟩, rfl⟩
        · split at h
          · cases hm : handle_multi_shift c with
            | error e => rw [hm] at h; cases h
            | ok t => rw [hm] at h; cases h; exact Or.inl ⟨handle_multi_shift_good hm, rfl⟩
          · split at h
            · cases hm : handle_inc c with
              | error e => rw [hm] at h; cases h
              | ok t => rw [hm] at h; cases h; exact Or.inl ⟨handle_inc_good hm, rfl⟩
            · split at h
              · cases hm : handle_dec c with
                | error e => rw [hm] at h; cases h
                | ok t => rw [hm] at h; cases h; exact Or.inl ⟨handle_dec_good hm, rfl⟩
              · split at h
                · cases h; exact Or.inl ⟨goodSeg_clear, rfl⟩
                · cases h

theorem popLoops_cnt : ∀ (stack : List Nat) (i n : Nat),
    cnt (popLoops i stack).1 (stack.length + n) = some ((popLoops i stack).2.length + n) := by
  intro stack
  induction stack with
  | nil => intro i n; simp [popLoops, cnt]
  | cons top rest ih =>
    intro i n
    by_cases hle : i ≤ top
    · simp only [popLoops, if_pos hle]
      have harith : (top :: rest).length + n = (rest.length + n) + 1 := by
        simp [List.length_cons]; omega
      rw [harith]
      show cnt (']' :: (popLoops i rest).1) ((rest.length + n) + 1) = _
      simp only [cnt, if_neg (by decide : ¬(']' = '[')), if_pos rfl]
      exact ih i n
    · simp only [popLoops, if_neg hle]
      rfl

theorem popLoops_alpha : ∀ (stack : List Nat) (i : Nat),
    ∀ c ∈ (popLoops i stack).1, c = ']' := by
  intro stack
  induction stack with
  | nil => intro i c hc; cases hc
  | cons top rest ih =>
    intro i c hc
    by_cases hle : i ≤ top
    · simp only [popLoops, if_pos hle] at hc
      rcases List.mem_cons.mp hc with rfl | hc
      · rfl
      · exact ih i c hc
    · simp only [popLoops, if_neg hle] at hc
      cases hc

theorem popLoops_chain : ∀ (stack : List Nat) (i : Nat),
    List.Chain' (· > ·) stack → List.Chain' (· > ·) (popLoops i stack).2 := by
  intro stack
  induction stack with
  | nil => intro i _; simp [popLoops]
  | cons top rest ih =>
    intro i hch
    by_cases hle : i ≤ top
    · simp only [popLoops, if_pos hle]
      exact ih i (List.chain'_cons'.mp hch).2
    · simp only [popLoops, if_neg hle]
      exact hch

theorem popLoops_head_lt : ∀ (stack : List Nat) (i : Nat),
    ∀ x ∈ ((popLoops i stack).2).head?, x < i := by
  intro stack
  induction stack with
  | nil => intro i x hx; simp [popLoops] at hx
  | cons top rest ih =>
    intro i x hx
    by_cases hle : i ≤ top
    · simp only [popLoops, if_pos hle] at hx
      exact ih i x hx
    · simp only [popLoops, if_neg hle] at hx
      have hx2 : top = x := by simpa using hx
      omega

theorem popLoops_all_lt : ∀ (stack : List Nat) (i : Nat),
    List.Pairwise (· > ·) stack → ∀ x ∈ (popLoops i stack).2, x < i := by
  intro stack
  induction stack with
  | nil => intro i _ x hx; simp [popLoops] at hx
  | cons top rest ih =>
    intro i hpw x hx
    by_cases hle : i ≤ top
    · simp only [popLoops, if_pos hle] at hx
      exact ih i (List.pairwise_cons.mp hpw).2 x hx
    · simp only [popLoops, if_neg hle] at hx
      rcases List.mem_cons.mp hx with rfl | hx
      · omega
      · have := (List.pairwise_cons.mp hpw).1 x hx
        omega

theorem inv_init : Inv ⟨[], []⟩ := ⟨rfl, alpha8_nil, by simp⟩

theorem process_line_inv {i : Nat} {c : List Char} {st st' : CompSt}
    (h : Inv st) (hp : process_line i c st = .ok st') : Inv st' := by
  simp only [process_line] at hp
  by_cases hc : c = []
  · rw [if_pos hc] at hp
    cases hp
    exact h
  · rw [if_neg hc] at hp
    cases hd : dispatch i (dropSemi c) (popLoops i st.stack).2 with
    | error e => rw [hd] at hp; simp [Except.map] at hp
    | ok r =>
      rw [hd] at hp
      simp only [Except.map] at hp
      cases hp
      have hpop : cnt (popLoops i st.stack).1 st.stack.length =
          some (popLoops i st.stack).2.length := by
        have := popLoops_cnt st.stack i 0
        simpa using this
      have hpopa : Alpha8 (popLoops i st.stack).1 := by
        intro x hx
        rw [popLoops_alpha st.stack i x hx]
        decide
      rcases dispatch_ok hd with ⟨hg, hs⟩ | ⟨h1, h2⟩
      · refine ⟨?_, ?_, ?_⟩
        · show cnt (st.output ++ (popLoops i st.stack).1 ++ r.1) 0 = some r.2.length
          rw [cnt_append, cnt_append, h.1]
          simp only [Option.some_bind]
          rw [hpop]
          simp only [Option.some_bind]
          rw [hg.1, hs]
        · exact alpha8_append (alpha8_append h.2.1 hpopa) hg.2
        · rw [hs]; exact popLoops_chain st.stack i h.2.2
      · refine ⟨?_, ?_, ?_⟩
        · show cnt (st.output ++ (popLoops i st.stack).1 ++ r.1) 0 = some r.2.length
          rw [cnt_append, cnt_append, h.1]
          simp only [Option.some_bind]
          rw [hpop]
          simp only [Option.some_bind]
          rw [h1, h2]
          simp [cnt]
        · rw [h1]
          refine alpha8_append (alpha8_append h.2.1 hpopa) ?_
          intro x hx; fin_cases hx; decide
        · rw [h2]
          exact List.chain'_cons'.mpr
            ⟨fun y hy => popLoops_head_lt st.stack i y hy,
             popLoops_chain st.stack i h.2.2⟩

theorem runLines_inv : ∀ (lines : List (Nat × List Char)) (n : Nat) (st st' : CompSt),
    Inv st → runLines n lines st = .ok st' → Inv st' := by
  intro lines
  induction lines with
  | nil => intro n st st' h hr; cases hr; exact h
  | cons p rest ih =>
    intro n st st' h hr
    unfold runLines at hr
    cases hp : process_line p.1 p.2 st with
    | error e => rw [hp] at hr; cases hr
    | ok st1 =>
      rw [hp] at hr
      exact ih (n + 1) st1 st' (process_line_inv h hp) hr

theorem cnt_replicate_close : ∀ (k n : Nat), cnt (List.replicate k ']') (k + n) = some n := by
  intro k
  induction k with
  | zero => intro n; simp [cnt]
  | succ m ih =>
    intro n
    have : m + 1 + n = (m + n) + 1 := by omega
    rw [List.replicate_succ, this]
    show cnt (']' :: List.replicate m ']') ((m + n) + 1) = some n
    simp only [cnt, if_neg (by decide : ¬(']' = '[')), if_pos rfl]
    exact ih n

theorem cnt_count : ∀ (l : List Char) (n m : Nat), cnt l n = some m →
    n + l.count '[' = m + l.count ']' := by
  intro l
  induction l with
  | nil => intro n m h; cases h; simp
  | cons c rest ih =>
    intro n m h
    by_cases hc : c = '['
    · rw [hc] at h ⊢
      simp only [cnt, if_pos rfl] at h
      have := ih (n + 1) m h
      rw [List.count_cons_self, List.count_cons_of_ne (by decide : (']' : Char) ≠ '[')]
      omega
    · by_cases hc2 : c = ']'
      · rw [hc2] at h ⊢
        simp only [cnt, if_neg (by decide : ¬(']' = '[')), if_pos rfl] at h
        cases n with
        | zero => cases h
        | succ k =>
          have := ih k m h
          rw [List.count_cons_self, List.count_cons_of_ne (by decide : ('[' : Char) ≠ ']')]
          omega
      · simp only [cnt, if_neg hc, if_neg hc2] at h
        have := ih n m h
        rw [List.count_cons_of_ne (fun e => hc e.symm), List.count_cons_of_ne (fun e => hc2 e.symm)]
        omega

theorem enumFrom_encode (s : List Char) : ∀ n : Nat, n ≠ 0 →
    ((List.enumFrom n s).map (fun p =>
      (if p.1 = 0 then [] else ['>']) ++ clear ++ List.replicate p.2.toNat '+')).flatten
      = encodeRest s := by
  induction s with
  | nil => intro n _; rfl
  | cons c rest ih =>
    intro n hn
    simp only [List.enumFrom, List.map_cons, List.flatten_cons]
    rw [if_neg hn, ih (n + 1) (by omega)]
    show (['>'] ++ clear ++ List.replicate c.toNat '+') ++ encodeRest rest =
      '>' :: (encodeChar c ++ encodeRest rest)
    simp [encodeChar, List.append_assoc]

/-- C1: for every source program that compiles without error, the emitted
token stream contains equally many loop-open and loop-close tokens, and
they are properly nested: the prefix-sum bracket walk (`cnt`, +1 on a
loop-open, -1 on a loop-close, failing if it would go negative) never goes
negative and ends at 0.  Unterminated loops are covered because `compile`
flushes every remaining open frame with one loop-close at end of input. -/
theorem c1_balanced_brackets (src out : List Char) (h : compile src = .ok out) :
    out.count '[' = out.count ']' ∧ cnt out 0 = some 0 := by
  unfold compile at h
  split at h
  · cases h
  · rename_i processed hpre
    split at h
    · cases h
    · rename_i st hrun
      cases h
      have hinv := runLines_inv processed 1 ⟨[], []⟩ st inv_init hrun
      have hcnt : cnt (st.output ++ List.replicate st.stack.length ']') 0 = some 0 := by
        rw [cnt_append, hinv.1]
        simp only [Option.some_bind]
        have := cnt_replicate_close st.stack.length 0
        simpa using this
      refine ⟨?_, hcnt⟩
      have hcc := cnt_count _ 0 0 hcnt
      omega

/-- Witness for C1 at the concrete program `loop:` / ` inc;` (a loop left
unterminated, closed by the end-of-input flush). -/
theorem c1_balanced_brackets_witness :
    compile ("loop:\n inc;".data) = .ok ("[+]".data) ∧
      ("[+]".data.count '[' = "[+]".data.count ']' ∧ cnt ("[+]".data) 0 = some 0) :=
  ⟨by decide, c1_balanced_brackets ("loop:\n inc;".data) ("[+]".data) (by decide)⟩

/-- C9: every character of a successfully compiled program's output is one
of the eight primitive tokens. -/
theorem c9_output_alphabet (src out : List Char) (h : compile src = .ok out) :
    ∀ c ∈ out, c ∈ bf8 := by
  unfold compile at h
  split at h
  · cases h
  · rename_i processed hpre
    split at h
    · cases h
    · rename_i st hrun
      cases h
      have hinv := runLines_inv processed 1 ⟨[], []⟩ st inv_init hrun
      intro c hc
      rcases List.mem_append.mp hc with hm | hm
      · exact hinv.2.1 c hm
      · rw [List.eq_of_mem_replicate hm]; decide

/-- Witness for C9 at a program exercising input, output, clear, shifts and
arithmetic statements. -/
theorem c9_output_alphabet_witness :
    compile ("ent input;\ncellout;\nclr;\n<;\n>;\ndec 2;".data) = .ok ("[-],.[-]<>--".data) ∧
      ∀ c ∈ "[-],.[-]<>--".data, c ∈ bf8 :=
  ⟨by decide, c9_output_alphabet ("ent input;\ncellout;\nclr;\n<;\n>;\ndec 2;".data) ("[-],.[-]<>--".data) (by decide)⟩

/-- C7: at every point during a compilation (after any prefix of the
preprocessed lines), the loop stack is strictly increasing in
`opened_at_indent` from bottom to top (the list head is the top, so the
list is strictly decreasing, hence pairwise: adjacent open frames never
share an indent level); moreover the dedent loop `popLoops` leaves, for any
incoming line indent `j`, only frames opened strictly below `j`, so a
`loop:` at the same indentation as an open loop closes that loop before the
new frame is pushed. -/
theorem c7_stack_strictly_sorted (src : List Char) (pls : List (Nat × List Char))
    (k : Nat) (st : CompSt) (hpre : preprocess (splitLines src) = .ok pls)
    (hrun : runLines 1 (pls.take k) ⟨[], []⟩ = .ok st) :
    List.Pairwise (· > ·) st.stack ∧ ∀ j x, x ∈ (popLoops j st.stack).2 → x < j := by
  have hinv := runLines_inv (pls.take k) 1 ⟨[], []⟩ st inv_init hrun
  haveI : IsTrans Nat (· > ·) := ⟨fun a b c h1 h2 => Nat.lt_trans h2 h1⟩
  have hpw : List.Pairwise (· > ·) st.stack := List.chain'_iff_pairwise.mp hinv.2.2
  exact ⟨hpw, fun j x hx => popLoops_all_lt st.stack j hpw x hx⟩

/-- Witness for C7: two nested loops give the strictly decreasing stack
`[1, 0]` after the first two preprocessed lines. -/
theorem c7_stack_strictly_sorted_witness :
    List.Pairwise (· > ·) ([1, 0] : List Nat) ∧
      ∀ j x, x ∈ (popLoops j ([1, 0] : List Nat)).2 → x < j :=
  c7_stack_strictly_sorted ("loop:\n loop:\n  inc;".data)
    [(0, "loop:".data), (1, "loop:".data), (2, "inc;".data)] 2 ⟨"[[".data, [1, 0]⟩
    (by decide) (by decide)

/-- C2 (evaluation at the failing input): the character literal with code
point 256 is accepted by the compiler, which emits the clear idiom followed
by 256 increments instead of failing with a range error — `_handle_ent`
performs no range check on character literals. -/
theorem c2_char_literal_overflow_emitted :
    compile ("ent ".data ++ [sq, Char.ofNat 256, sq, ';']) =
      .ok (clear ++ List.replicate 256 '+') := by decide

/-- C10: the empty string literal statement compiles successfully and emits
no tokens at all, not even a clear idiom. -/
theorem c10_empty_string_literal :
    compile ("ent ".data ++ [dq, dq, ';']) = .ok [] := by decide

/-- C4: the statement `ent "AB";` emits exactly the clear idiom, 65
increments, one forward shift, the clear idiom and 66 increments; and in
general the string-literal encoding used by `_handle_ent` emits, for each
character in order, one `>` before every character except the first, then
the clear idiom followed by the character's ordinal in increments, with no
trailing shift back (`encodeStringSpec` is that rule stated index-wise). -/
theorem c4_string_literal_emission :
    compile ("ent ".data ++ [dq, 'A', 'B', dq, ';']) =
      .ok (clear ++ List.replicate 65 '+' ++ ['>'] ++ clear ++ List.replicate 66 '+') ∧
    ∀ s : List Char, encodeString s = encodeStringSpec s := by
  refine ⟨by decide, ?_⟩
  intro s
  cases s with
  | nil => rfl
  | cons c rest =>
    show encodeChar c ++ encodeRest rest = _
    unfold encodeStringSpec
    rw [List.enum_cons]
    simp only [List.map_cons, List.flatten_cons]
    rw [enumFrom_encode rest 1 (by omega)]
    simp [encodeChar, List.append_assoc]

theorem preprocess_error_of_bad : ∀ (ls : List (List Char)),
    (∃ l ∈ ls, strip (stripComment l) ≠ [] ∧
      (strip (stripComment l)).getLast? ≠ some ':' ∧
      (strip (stripComment l)).getLast? ≠ some ';') →
    ∃ c, preprocess ls = .error (.badTerminator c) ∧
      ∃ l2 ∈ ls, c = strip (stripComment l2) ∧ c ≠ [] ∧
        c.getLast? ≠ some ':' ∧ c.getLast? ≠ some ';' := by
  intro ls
  induction ls with
  | nil => rintro ⟨l, hl, _⟩; cases hl
  | cons line rest ih =>
    rintro ⟨l, hl, hprops⟩
    by_cases hc0 : strip (stripComment line) = []
    · have hlr : l ∈ rest := by
        rcases List.mem_cons.mp hl with rfl | h
        · exact absurd hc0 hprops.1
        · exact h
      obtain ⟨c, hpe, l2, hl2, hb⟩ := ih ⟨l, hlr, hprops⟩
      refine ⟨c, ?_, l2, List.mem_cons_of_mem _ hl2, hb⟩
      simp only [preprocess]
      rw [if_pos hc0]
      exact hpe
    · by_cases hterm : (strip (stripComment line)).getLast? = some ':' ∨
          (strip (stripComment line)).getLast? = some ';'
      · have hlr : l ∈ rest := by
          rcases List.mem_cons.mp hl with rfl | h
          · rcases hterm with ht | ht
            · exact absurd ht hprops.2.1
            · exact absurd ht hprops.2.2
          · exact h
        obtain ⟨c, hpe, l2, hl2, hb⟩ := ih ⟨l, hlr, hprops⟩
        refine ⟨c, ?_, l2, List.mem_cons_of_mem _ hl2, hb⟩
        simp only [preprocess]
        rw [if_neg hc0, if_pos hterm, hpe]
        rfl
      · refine ⟨strip (stripComment line), ?_, line, List.mem_cons_self _ _, rfl, hc0,
          fun h => hterm (Or.inl h), fun h => hterm (Or.inr h)⟩
        simp only [preprocess]
        rw [if_neg hc0, if_neg hterm]

/-- C8: every non-blank line surviving comment stripping whose trimmed
content ends with neither `:` nor `;` makes the whole compilation fail with
the terminator syntax error carrying an (equally malformed) offending
line's trimmed content; the error comes out of `preprocess`, which runs in
full before any statement dispatch. -/
theorem c8_terminator_validated (src l : List Char) (hmem : l ∈ splitLines src)
    (h1 : strip (stripComment l) ≠ [])
    (h2 : (strip (stripComment l)).getLast? ≠ some ':')
    (h3 : (strip (stripComment l)).getLast? ≠ some ';') :
    ∃ c, compile src = .error (.badTerminator c) ∧
      ∃ l2 ∈ splitLines src, c = strip (stripComment l2) ∧ c ≠ [] ∧
        c.getLast? ≠ some ':' ∧ c.getLast? ≠ some ';' := by
  obtain ⟨c, hpe, hrest⟩ := preprocess_error_of_bad (splitLines src) ⟨l, hmem, h1, h2, h3⟩
  refine ⟨c, ?_, hrest⟩
  unfold compile
  rw [hpe]

/-- Witness for C8 at the one-line program `x` (no terminator). -/
theorem c8_terminator_validated_witness :
    ∃ c, compile ['x'] = .error (.badTerminator c) ∧
      ∃ l2 ∈ splitLines ['x'], c = strip (stripComment l2) ∧ c ≠ [] ∧
        c.getLast? ≠ some ':' ∧ c.getLast? ≠ some ';' :=
  c8_terminator_validated ['x'] ['x'] (by decide) (by decide) (by decide) (by decide)

/-- Counterexample to C3 as stated: the terminator error for the program
`x` is reported as a bare `badTerminator` carrying no line position at all
(in the Python source, `_preprocess_lines` raises outside the
`try`/`except` of `compile` that wraps errors with `Error on line N`). -/
theorem c3_counterexample :
    compile ['x'] = .error (.badTerminator ['x']) ∧
      CErr.lineNum (.badTerminator ['x']) = none :=
  ⟨by decide, rfl⟩

theorem preprocess_error_shape : ∀ (ls : List (List Char)) (e : CErr),
    preprocess ls = .error e → ∃ c, e = .badTerminator c := by
  intro ls
  induction ls with
  | nil => intro e h; cases h
  | cons line rest ih =>
    intro e h
    simp only [preprocess] at h
    by_cases hc0 : strip (stripComment line) = []
    · rw [if_pos hc0] at h
      exact ih e h
    · rw [if_neg hc0] at h
      by_cases hterm : (strip (stripComment line)).getLast? = some ':' ∨
          (strip (stripComment line)).getLast? = some ';'
      · rw [if_pos hterm] at h
        cases hp : preprocess rest with
        | error e2 =>
          rw [hp] at h
          cases h
          exact ih _ hp
        | ok ps => rw [hp] at h; cases h
      · rw [if_neg hterm] at h
        cases h
        exact ⟨_, rfl⟩

theorem runLines_error_localize : ∀ (lines : List (Nat × List Char)) (st0 : CompSt)
    (n0 : Nat) (e : CErr), runLines n0 lines st0 = .error e →
    ∃ k le st p, e = .atLine (n0 + k) le ∧ k < lines.length ∧
      runLines n0 (lines.take k) st0 = .ok st ∧
      List.get? lines k = some p ∧ process_line p.1 p.2 st = .error le := by
  intro lines
  induction lines with
  | nil => intro st0 n0 e h; simp [runLines] at h
  | cons q rest ih =>
    intro st0 n0 e h
    obtain ⟨qi, qc⟩ := q
    simp only [runLines] at h
    cases hp : process_line qi qc st0 with
    | error le =>
      rw [hp] at h
      cases h
      refine ⟨0, le, st0, (qi, qc), by rw [Nat.add_zero], by simp, rfl, rfl, hp⟩
    | ok st1 =>
      rw [hp] at h
      obtain ⟨k, le, st, p, he, hk, hr, hg, hpl⟩ := ih st1 (n0 + 1) e h
      refine ⟨k + 1, le, st, p, ?_, ?_, ?_, ?_, hpl⟩
      · rw [he]
        congr 1
        omega
      · simp only [List.length_cons]
        omega
      · simp only [List.take_succ_cons, runLines]
        rw [hp]
        exact hr
      · simpa using hg

/-- C3 amended: every error `compile` reports is either the terminator
syntax error from preprocessing — raised unwrapped, with no line position —
or an error wrapped with the 1-based position of the first failing line
among the preprocessed lines; in the wrapped case every earlier line was
processed successfully and compilation stops at that first error,
returning no output. -/
theorem c3_error_localization (src : List Char) (e : CErr)
    (h : compile src = .error e) :
    (∃ c, e = .badTerminator c ∧ CErr.lineNum e = none) ∨
    (∃ n le pls st p, preprocess (splitLines src) = .ok pls ∧
      e = .atLine n le ∧ CErr.lineNum e = some n ∧ 1 ≤ n ∧ n ≤ pls.length ∧
      runLines 1 (pls.take (n - 1)) ⟨[], []⟩ = .ok st ∧
      List.get? pls (n - 1) = some p ∧ process_line p.1 p.2 st = .error le) := by
  unfold compile at h
  split at h
  · rename_i e0 hpre
    cases h
    left
    obtain ⟨c, hc⟩ := preprocess_error_shape _ _ hpre
    exact ⟨c, hc, by rw [hc]; rfl⟩
  · rename_i pls hpre
    split at h
    · rename_i e0 hrun
      cases h
      right
      obtain ⟨k, le, st, p, he, hk, hr, hg, hpl⟩ :=
        runLines_error_localize pls ⟨[], []⟩ 1 _ hrun
      have hk1 : 1 + k - 1 = k := by omega
      refine ⟨1 + k, le, pls, st, p, hpre, he, ?_, by omega, by omega, ?_, ?_, hpl⟩
      · rw [he]
        rfl
      · rw [hk1]
        exact hr
      · rw [hk1]
        exact hg
    · cases h

/-- Witness for the amended C3 at the program `zzz;`, whose unknown
statement is reported wrapped as an error at line 1. -/
theorem c3_error_localization_witness :
    (∃ c, CErr.atLine 1 (.unknownStatement "zzz".data) = CErr.badTerminator c ∧
      CErr.lineNum (CErr.atLine 1 (.unknownStatement "zzz".data)) = none) ∨
    (∃ n le pls st p, preprocess (splitLines "zzz;".data) = .ok pls ∧
      CErr.atLine 1 (.unknownStatement "zzz".data) = .atLine n le ∧
      CErr.lineNum (CErr.atLine 1 (.unknownStatement "zzz".data)) = some n ∧
      1 ≤ n ∧ n ≤ pls.length ∧
      runLines 1 (pls.take (n - 1)) ⟨[], []⟩ = .ok st ∧
      List.get? pls (n - 1) = some p ∧ process_line p.1 p.2 st = .error le) :=
  c3_error_localization "zzz;".data _ (by decide)

theorem mem_of_mem_headOpt {x : Char} : ∀ {l : List Char}, x ∈ l.head? → x ∈ l := by
  intro l hx
  cases l with
  | nil => cases hx
  | cons c rest =>
    have hxc : c = x := by simpa using hx
    rw [← hxc]
    exact List.mem_cons_self c rest

theorem mem_of_mem_getLastOpt {x : Char} : ∀ {l : List Char}, x ∈ l.getLast? → x ∈ l := by
  intro l
  induction l with
  | nil => intro hx; cases hx
  | cons c rest ih =>
    intro hx
    cases rest with
    | nil =>
      have hxc : c = x := by simpa using hx
      rw [← hxc]; exact List.mem_cons_self c []
    | cons d rs =>
      rw [List.getLast?_cons_cons] at hx
      exact List.mem_cons_of_mem c (ih hx)

theorem splitLines_single : ∀ (l : List Char), (∀ c ∈ l, c ≠ '\n') →
    splitLines l = [l] := by
  intro l
  induction l with
  | nil => intro _; rfl
  | cons c rest ih =>
    intro h
    have hrest := ih (fun x hx => h x (List.mem_cons_of_mem c hx))
    simp only [splitLines, if_neg (h c (List.mem_cons_self c rest)), hrest]

theorem stripComment_eq_self : ∀ (l : List Char), (∀ c ∈ l, c ≠ '/') →
    stripComment l = l := by
  intro l
  induction l with
  | nil => intro _; rfl
  | cons c rest ih =>
    intro h
    have hc : c ≠ '/' := h c (List.mem_cons_self c rest)
    have hcond : ¬(c = '/' ∧ rest.head? = some '/') := fun hand => hc hand.1
    simp only [stripComment]
    rw [if_neg hcond, ih (fun x hx => h x (List.mem_cons_of_mem c hx))]

theorem dropWhile_eq_self_of_head {p : Char → Bool} {m : List Char}
    (h : ∀ x ∈ m.head?, p x = false) : m.dropWhile p = m := by
  cases m with
  | nil => rfl
  | cons c rest =>
    have hc := h c (by simp)
    rw [List.dropWhile_cons, if_neg (by simp [hc])]

theorem lstrip_eq_self_of {l : List Char} (h : ∀ x ∈ l.head?, pyWS x = false) :
    lstrip l = l :=
  dropWhile_eq_self_of_head h

theorem rstrip_eq_self_of {l : List Char} (h : ∀ x ∈ l.getLast?, pyWS x = false) :
    rstrip l = l := by
  unfold rstrip
  rw [dropWhile_eq_self_of_head (p := pyWS) (m := l.reverse)
    (by intro x hx; exact h x (by rwa [List.head?_reverse] at hx)), List.reverse_reverse]

theorem strip_eq_self_of {l : List Char} (hh : ∀ x ∈ l.head?, pyWS x = false)
    (hl : ∀ x ∈ l.getLast?, pyWS x = false) : strip l = l := by
  unfold strip
  rw [lstrip_eq_self_of hh, rstrip_eq_self_of hl]

theorem dropWhile_eq_self_head {p : Char → Bool} {l : List Char}
    (h : l.dropWhile p = l) : ∀ x ∈ l.head?, p x = false := by
  intro x hx
  cases l with
  | nil => cases hx
  | cons c rest =>
    have hxc : c = x := by simpa using hx
    subst hxc
    cases hp : p c
    · rfl
    · exfalso
      rw [List.dropWhile_cons, if_pos hp] at h
      have hlen := congrArg List.length h
      have hle := (List.dropWhile_sublist (l := rest) p).length_le
      simp only [List.length_cons] at hlen
      omega

theorem strip_eq_self_parts {t : List Char} (h : strip t = t) :
    (∀ x ∈ t.head?, pyWS x = false) ∧ (∀ x ∈ t.getLast?, pyWS x = false) := by
  have hlen1 : (lstrip t).length ≤ t.length := (List.dropWhile_sublist pyWS).length_le
  have hlen2 : (strip t).length ≤ (lstrip t).length := by
    unfold strip rstrip
    rw [List.length_reverse]
    have := (List.dropWhile_sublist (l := (lstrip t).reverse) pyWS).length_le
    rwa [List.length_reverse] at this
  have hlent : (strip t).length = t.length := congrArg List.length h
  have hsub1 : List.Sublist (lstrip t) t := List.dropWhile_sublist pyWS
  have hls : lstrip t = t := hsub1.eq_of_length (by omega)
  have hrs : rstrip t = t := by
    have : strip t = rstrip t := by unfold strip; rw [hls]
    rw [← this, h]
  constructor
  · exact dropWhile_eq_self_head hls
  · intro x hx
    have hrev : t.reverse.dropWhile pyWS = t.reverse := by
      have := congrArg List.reverse hrs
      rwa [rstrip, List.reverse_reverse] at this
    exact dropWhile_eq_self_head hrev x (by rwa [List.head?_reverse])

theorem digit_not_ws {c : Char} (h : c.isDigit = true) : pyWS c = false := by
  cases hws : pyWS c
  · rfl
  · exfalso
    simp only [pyWS, Bool.or_eq_true, decide_eq_true_eq] at hws
    rcases hws with ((((h1 | h1) | h1) | h1) | h1) | h1 <;> subst h1 <;>
      exact absurd h (by decide)

theorem digit_ne_newline {c : Char} (h : c.isDigit = true) : c ≠ '\n' :=
  fun he => by subst he; exact absurd h (by decide)

theorem digit_ne_slash {c : Char} (h : c.isDigit = true) : c ≠ '/' :=
  fun he => by subst he; exact absurd h (by decide)

theorem digit_ne_sq {c : Char} (h : c.isDigit = true) : c ≠ sq :=
  fun he => by subst he; exact absurd h (by decide)

theorem digit_ne_dq {c : Char} (h : c.isDigit = true) : c ≠ dq :=
  fun he => by subst he; exact absurd h (by decide)

theorem indentOf_eq_zero {l : List Char} (h : ∀ x ∈ l.head?, pyWS x = false) :
    indentOf l = 0 := by
  cases l with
  | nil => rfl
  | cons c rest =>
    have hc := h c (by simp)
    have hsp : c ≠ ' ' := fun he => by subst he; exact absurd hc (by decide)
    have htb : c ≠ '\t' := fun he => by subst he; exact absurd hc (by decide)
    simp only [indentOf, if_neg hsp, if_neg htb]

theorem compile_single (content : List Char)
    (h1 : ∀ c ∈ content, c ≠ '\n') (h2 : ∀ c ∈ content, c ≠ '/')
    (h3 : ∀ x ∈ content.head?, pyWS x = false)
    (h4 : content.getLast? = some ';') :
    compile content =
      match dispatch 0 (dropSemi content) [] with
      | .error e => .error (.atLine 1 e)
      | .ok r => .ok (r.1 ++ List.replicate r.2.length ']') := by
  have hne : content ≠ [] := by intro he; rw [he] at h4; cases h4
  have hsplit : splitLines content = [content] := splitLines_single content h1
  have hsc : stripComment content = content := stripComment_eq_self content h2
  have hlast_ws : ∀ x ∈ content.getLast?, pyWS x = false := by
    intro x hx
    rw [h4] at hx
    have hx2 : ';' = x := by simpa using hx
    subst hx2
    decide
  have hstrip : strip content = content := strip_eq_self_of h3 hlast_ws
  have hind : indentOf content = 0 := indentOf_eq_zero h3
  have hpre : preprocess (splitLines content) = .ok [(0, content)] := by
    rw [hsplit]
    simp only [preprocess, hsc, hstrip]
    rw [if_neg hne, if_pos (Or.inr h4), hind]
    rfl
  have hpl : process_line 0 content ⟨[], []⟩ =
      (dispatch 0 (dropSemi content) []).map (fun r => ⟨r.1, r.2⟩) := by
    simp only [process_line]
    rw [if_neg hne]
    rfl
  unfold compile
  rw [hpre]
  show (match runLines 1 [(0, content)] ⟨[], []⟩ with
    | .error e => Except.error e
    | .ok st => .ok (st.output ++ List.replicate st.stack.length ']')) = _
  simp only [runLines, hpl]
  cases hd : dispatch 0 (dropSemi content) [] with
  | error e => rfl
  | ok r => rfl

theorem isPrefixOf_append_self (a b : List Char) : List.isPrefixOf a (a ++ b) = true := by
  rw [ List.isPrefixOf_iff_prefix]
  exact List.prefix_append a b

theorem getLast?_isSome_of_ne_nil : ∀ {l : List Char}, l ≠ [] →
    ∃ y, l.getLast? = some y := by
  intro l hne
  induction l with
  | nil => exact absurd rfl hne
  | cons c rest ih =>
    cases rest with
    | nil => exact ⟨c, rfl⟩
    | cons d rs =>
      obtain ⟨y, hy⟩ := ih (by simp)
      exact ⟨y, by rw [List.getLast?_cons_cons]; exact hy⟩

/-- C5: for every decimal digit string `ds`, the statement `ent ds;`
compiles to the clear idiom followed by exactly `int(ds)` increments when
the value is at most 255 (value 0 thus yields the bare clear idiom), and
fails with the range error naming the value, wrapped at line 1, when the
value exceeds 255. -/
theorem c5_integer_literal (ds : List Char) (hne : ds ≠ [])
    (hd : ∀ c ∈ ds, c.isDigit = true) :
    compile ("ent ".data ++ (ds ++ [';'])) =
      if parseNat ds > 255 then .error (.atLine 1 (.rangeError (parseNat ds)))
      else .ok (clear ++ List.replicate (parseNat ds) '+') := by
  have h4 : ("ent ".data ++ (ds ++ [';'])).getLast? = some ';' := by
    rw [List.getLast?_append, List.getLast?_concat]
    rfl
  have h1 : ∀ c ∈ "ent ".data ++ (ds ++ [';']), c ≠ '\n' := by
    intro c hc
    rcases List.mem_append.mp hc with hm | hm
    · fin_cases hm <;> decide
    · rcases List.mem_append.mp hm with hm2 | hm2
      · exact digit_ne_newline (hd c hm2)
      · have : c = ';' := by simpa using hm2
        subst this; decide
  have h2 : ∀ c ∈ "ent ".data ++ (ds ++ [';']), c ≠ '/' := by
    intro c hc
    rcases List.mem_append.mp hc with hm | hm
    · fin_cases hm <;> decide
    · rcases List.mem_append.mp hm with hm2 | hm2
      · exact digit_ne_slash (hd c hm2)
      · have : c = ';' := by simpa using hm2
        subst this; decide
  have h3 : ∀ x ∈ ("ent ".data ++ (ds ++ [';'])).head?, pyWS x = false := by
    intro x hx
    have hx2 : 'e' = x := by simpa using hx
    subst hx2
    decide
  rw [compile_single _ h1 h2 h3 h4]
  have h5 : dropSemi ("ent ".data ++ (ds ++ [';'])) = "ent ".data ++ ds := by
    unfold dropSemi
    rw [if_pos h4,
      show "ent ".data ++ (ds ++ [';']) = ("ent ".data ++ ds) ++ [';'] from
        (List.append_assoc _ _ _).symm]
    exact List.dropLast_concat
  rw [h5]
  have hloop : List.isPrefixOf "loop:".data ("ent ".data ++ ds) = false := rfl
  have hent : List.isPrefixOf "ent ".data ("ent ".data ++ ds) = true :=
    isPrefixOf_append_self _ _
  have hdisp : dispatch 0 ("ent ".data ++ ds) [] =
      (handle_ent (("ent ".data ++ ds).drop 4)).map (fun t => (t, ([] : List Nat))) := by
    unfold dispatch
    rw [if_neg (by simp [hloop]), if_pos hent]
  rw [hdisp]
  have hdrop : ("ent ".data ++ ds).drop 4 = ds := rfl
  rw [hdrop]
  have hstripds : strip ds = ds := strip_eq_self_of
    (fun x hx => digit_not_ws (hd x (mem_of_mem_headOpt hx)))
    (fun x hx => digit_not_ws (hd x (mem_of_mem_getLastOpt hx)))
  have hnotinput : ¬(ds = "input".data) := by
    intro he
    have hi : ('i' : Char).isDigit = true := hd 'i' (by rw [he]; decide)
    exact absurd hi (by decide)
  have hsqh : ¬(ds.head? = some sq) := by
    intro he
    have hm : sq ∈ ds := mem_of_mem_headOpt (by rw [he]; rfl)
    exact absurd (hd sq hm) (by decide)
  have hdqh : ¬(ds.head? = some dq) := by
    intro he
    have hm : dq ∈ ds := mem_of_mem_headOpt (by rw [he]; rfl)
    exact absurd (hd dq hm) (by decide)
  have hdig : pyIsdigit ds = true := by
    unfold pyIsdigit
    have h6 : ds.isEmpty = false := by
      cases ds with
      | nil => exact absurd rfl hne
      | cons a l => rfl
    rw [h6]
    simp only [Bool.not_false, Bool.true_and, List.all_eq_true]
    exact fun x hx => hd x hx
  have hent2 : handle_ent ds =
      if parseNat ds > 255 then .error (.rangeError (parseNat ds))
      else .ok (clear ++ List.replicate (parseNat ds) '+') := by
    simp only [handle_ent, hstripds]
    rw [if_neg hnotinput,
      if_neg (by simp only [Bool.and_eq_true, decide_eq_true_eq]; rintro ⟨⟨hq, _⟩, _⟩; exact hsqh hq),
      if_neg (by simp only [Bool.and_eq_true, decide_eq_true_eq]; rintro ⟨hq, _⟩; exact hdqh hq),
      if_pos hdig]
  rw [hent2]
  by_cases hP : parseNat ds > 255
  · rw [if_pos hP, if_pos hP]
    rfl
  · rw [if_neg hP, if_neg hP]
    show Except.ok (clear ++ List.replicate (parseNat ds) '+' ++ List.replicate 0 ']') = _
    simp

/-- Witness for C5 at `ent 0;`: only the 3-token clear idiom is emitted. -/
theorem c5_integer_literal_witness :
    compile ("ent ".data ++ ("0".data ++ [';'])) =
      .ok (clear ++ List.replicate (parseNat "0".data) '+') := by
  have h := c5_integer_literal "0".data (by decide) (by decide)
  rw [h]
  decide

theorem multi_shift_lt_spec (t : List Char) :
    handle_multi_shift ("<<".data ++ t) =
      if pyIsdigit t = true then
        (if parseNat t ≤ 0 then .error (.shiftNotPositive ("<<".data ++ t))
         else .ok (List.replicate (parseNat t) '<'))
      else .error (.invalidShiftNumber ("<<".data ++ t)) := by
  simp only [handle_multi_shift]
  rw [if_pos (isPrefixOf_append_self "<<".data t)]
  show (if (!pyIsdigit t) = true then
      (Except.error (LineErr.invalidShiftNumber ("<<".data ++ t)) : Except LineErr (List Char))
    else if parseNat t ≤ 0 then .error (.shiftNotPositive ("<<".data ++ t))
    else .ok (List.replicate (parseNat t) '<')) = _
  cases hb : pyIsdigit t with
  | true => simp
  | false => simp

theorem multi_shift_gt_spec (t : List Char) :
    handle_multi_shift (">>".data ++ t) =
      if pyIsdigit t = true then
        (if parseNat t ≤ 0 then .error (.shiftNotPositive (">>".data ++ t))
         else .ok (List.replicate (parseNat t) '>'))
      else .error (.invalidShiftNumber (">>".data ++ t)) := by
  simp only [handle_multi_shift]
  rw [if_neg (show ¬(List.isPrefixOf "<<".data (">>".data ++ t) = true) by
    intro hcon; exact absurd hcon (by rw [show List.isPrefixOf "<<".data (">>".data ++ t) = false from rfl]; decide))]
  rw [if_pos (isPrefixOf_append_self ">>".data t)]
  show (if (!pyIsdigit t) = true then
      (Except.error (LineErr.invalidShiftNumber (">>".data ++ t)) : Except LineErr (List Char))
    else if parseNat t ≤ 0 then .error (.shiftNotPositive (">>".data ++ t))
    else .ok (List.replicate (parseNat t) '>')) = _
  cases hb : pyIsdigit t with
  | true => simp
  | false => simp

theorem inc_amount_spec (t : List Char) (hst : strip t = t) (hne : t ≠ []) :
    handle_inc ("inc ".data ++ t) =
      if pyIsdigit t = true then
        (if parseNat t ≤ 0 then .error (.incNotPositive (parseNat t))
         else .ok (List.replicate (parseNat t) '+'))
      else .error (.invalidIncAmount t) := by
  have hparts := strip_eq_self_parts hst
  have hlast : ∀ x ∈ ("inc ".data ++ t).getLast?, pyWS x = false := by
    intro x hx
    obtain ⟨y, hy⟩ := getLast?_isSome_of_ne_nil hne
    rw [List.getLast?_append, hy] at hx
    have hxy : y = x := by simpa using hx
    subst hxy
    exact hparts.2 y (by rw [hy]; rfl)
  have hstr2 : strip ("inc ".data ++ t) = "inc ".data ++ t := by
    refine strip_eq_self_of ?_ hlast
    intro x hx
    have hxi : 'i' = x := by simpa using hx
    subst hxi
    decide
  have hneq : ¬(strip ("inc ".data ++ t) = "inc".data) := by
    rw [hstr2]
    intro he
    have h9 := congrArg (List.drop 3) he
    rw [show List.drop 3 ("inc ".data ++ t) = ' ' :: t from rfl,
      show List.drop 3 ("inc".data) = [] from rfl] at h9
    cases h9
  simp only [handle_inc]
  rw [if_neg hneq, if_pos (isPrefixOf_append_self "inc ".data t)]
  have hdrop : ("inc ".data ++ t).drop 4 = t := rfl
  rw [hdrop, hst]
  show (if (!pyIsdigit t) = true then
      (Except.error (LineErr.invalidIncAmount t) : Except LineErr (List Char))
    else if parseNat t ≤ 0 then .error (.incNotPositive (parseNat t))
    else .ok (List.replicate (parseNat t) '+')) = _
  cases hb : pyIsdigit t with
  | true => simp
  | false => simp

theorem dec_amount_spec (t : List Char) (hst : strip t = t) (hne : t ≠ []) :
    handle_dec ("dec ".data ++ t) =
      if pyIsdigit t = true then
        (if parseNat t ≤ 0 then .error (.decNotPositive (parseNat t))
         else .ok (List.replicate (parseNat t) '-'))
      else .error (.invalidDecAmount t) := by
  have hparts := strip_eq_self_parts hst
  have hlast : ∀ x ∈ ("dec ".data ++ t).getLast?, pyWS x = false := by
    intro x hx
    obtain ⟨y, hy⟩ := getLast?_isSome_of_ne_nil hne
    rw [List.getLast?_append, hy] at hx
    have hxy : y = x := by simpa using hx
    subst hxy
    exact hparts.2 y (by rw [hy]; rfl)
  have hstr2 : strip ("dec ".data ++ t) = "dec ".data ++ t := by
    refine strip_eq_self_of ?_ hlast
    intro x hx
    have hxi : 'd' = x := by simpa using hx
    subst hxi
    decide
  have hneq : ¬(strip ("dec ".data ++ t) = "dec".data) := by
    rw [hstr2]
    intro he
    have h9 := congrArg (List.drop 3) he
    rw [show List.drop 3 ("dec ".data ++ t) = ' ' :: t from rfl,
      show List.drop 3 ("dec".data) = [] from rfl] at h9
    cases h9
  simp only [handle_dec]
  rw [if_neg hneq, if_pos (isPrefixOf_append_self "dec ".data t)]
  have hdrop : ("dec ".data ++ t).drop 4 = t := rfl
  rw [hdrop, hst]
  show (if (!pyIsdigit t) = true then
      (Except.error (LineErr.invalidDecAmount t) : Except LineErr (List Char))
    else if parseNat t ≤ 0 then .error (.decNotPositive (parseNat t))
    else .ok (List.replicate (parseNat t) '-')) = _
  cases hb : pyIsdigit t with
  | true => simp
  | false => simp

/-- C6: for every amount token `t`, `<<t` emits `int(t)` left-shift tokens
and `>>t` emits `int(t)` right-shift tokens exactly when `t` is a digit
string of positive value, and errors on a zero or non-digit (hence also
negative) amount; `inc t` and `dec t` behave the same with increment and
decrement tokens; concretely `<<3;` compiles to three `<` while `>>0;` and
`<<-1;` fail with the positivity and invalid-number errors. -/
theorem c6_amount_parsing :
    (∀ t : List Char, handle_multi_shift ("<<".data ++ t) =
      if pyIsdigit t = true then
        (if parseNat t ≤ 0 then .error (.shiftNotPositive ("<<".data ++ t))
         else .ok (List.replicate (parseNat t) '<'))
      else .error (.invalidShiftNumber ("<<".data ++ t))) ∧
    (∀ t : List Char, handle_multi_shift (">>".data ++ t) =
      if pyIsdigit t = true then
        (if parseNat t ≤ 0 then .error (.shiftNotPositive (">>".data ++ t))
         else .ok (List.replicate (parseNat t) '>'))
      else .error (.invalidShiftNumber (">>".data ++ t))) ∧
    (∀ t : List Char, strip t = t → t ≠ [] → handle_inc ("inc ".data ++ t) =
      if pyIsdigit t = true then
        (if parseNat t ≤ 0 then .error (.incNotPositive (parseNat t))
         else .ok (List.replicate (parseNat t) '+'))
      else .error (.invalidIncAmount t)) ∧
    (∀ t : List Char, strip t = t → t ≠ [] → handle_dec ("dec ".data ++ t) =
      if pyIsdigit t = true then
        (if parseNat t ≤ 0 then .error (.decNotPositive (parseNat t))
         else .ok (List.replicate (parseNat t) '-'))
      else .error (.invalidDecAmount t)) ∧
    compile ("<<3;".data) = .ok ("<<<".data) ∧
    compile (">>0;".data) = .error (.atLine 1 (.shiftNotPositive ">>0".data)) ∧
    compile ("<<-1;".data) = .error (.atLine 1 (.invalidShiftNumber "<<-1".data)) :=
  ⟨multi_shift_lt_spec, multi_shift_gt_spec, inc_amount_spec, dec_amount_spec,
    by decide, by decide, by decide⟩

/-- Witness for C6: the quantified clauses applied at the concrete amount
tokens `3` (for `<<`) and `7` (for `inc`). -/
theorem c6_amount_parsing_witness :
    (handle_multi_shift ("<<".data ++ "3".data) =
      if pyIsdigit "3".data = true then
        (if parseNat "3".data ≤ 0 then .error (.shiftNotPositive ("<<".data ++ "3".data))
         else .ok (List.replicate (parseNat "3".data) '<'))
      else .error (.invalidShiftNumber ("<<".data ++ "3".data))) ∧
    (handle_inc ("inc ".data ++ "7".data) =
      if pyIsdigit "7".data = true then
        (if parseNat "7".data ≤ 0 then .error (.incNotPositive (parseNat "7".data))
         else .ok (List.replicate (parseNat "7".data) '+'))
      else .error (.invalidIncAmount "7".data)) :=
  ⟨c6_amount_parsing.1 "3".data,
    c6_amount_parsing.2.2.1 "7".data (by decide) (by decide)⟩

end BrainBang
